import Mathlib

set_option maxRecDepth 8000

/-!
Verification of the PNG chunk-stream editor (get_png_dimensions /
modify_png_dimensions) against its natural-language specification.

The byte buffer is modelled as a list of naturals (each entry a byte value).
Python file reads and slice reads are modelled positionally: a read of n bytes
at position i succeeds exactly when i + n is within the buffer, matching
struct.unpack raising on short slices.  Fallible operations return Option,
with none standing for every error path (raised-and-caught exception, early
return without output).  The interactive confirmation prompt inside
modify_png_dimensions is an external-collaborator concern per the spec; the
embedding models the confirmed path.  The Python float arithmetic on the
scale-factor and aspect-ratio paths is modelled with exact rationals; all
concrete inputs used below are dyadic and small, where the two agree.
-/

/-- The 8-byte PNG signature constant. -/
def pngSig : List ℕ := [137, 80, 78, 71, 13, 10, 26, 10]

/-- The 4-byte header chunk type tag (IHDR). -/
def ihdrType : List ℕ := [73, 72, 68, 82]

/-- The 4-byte terminal chunk type tag (IEND). -/
def iendType : List ℕ := [73, 69, 78, 68]

/-- The fixed 12-byte terminal chunk: zero length, IEND tag, fixed CRC. -/
def iendMarker : List ℕ := [0, 0, 0, 0, 73, 69, 78, 68, 174, 66, 96, 130]

/-- Big-endian 4-byte read at offset i (struct.unpack of a 4-byte slice);
callers guard the offset so that all four bytes are in range. -/
def be4 (buf : List ℕ) (i : ℕ) : ℕ :=
  buf.getD i 0 * 16777216 + buf.getD (i + 1) 0 * 65536 +
    buf.getD (i + 2) 0 * 256 + buf.getD (i + 3) 0

/-- Big-endian 4-byte encoding of a value below 2^32 (struct.pack of a u32). -/
def be4enc (v : ℕ) : List ℕ :=
  [v / 16777216 % 256, v / 65536 % 256, v / 256 % 256, v % 256]

attribute [local semireducible] Rat.mul Rat.inv

/-- Truncation toward zero of a rational, the behavior of Python int() on a
float or int value: the quotient of numerator by denominator rounded toward
zero (Int.tdiv is t-division, i.e. truncation). -/
def pyTrunc (q : ℚ) : ℤ := Int.tdiv q.num q.den

/-- One bit step of the reflected CRC-32 computation with the PNG polynomial. -/
def crcStep (c : ℕ) : ℕ :=
  if c % 2 = 1 then (c / 2) ^^^ 3988292384 else c / 2

/-- CRC-32 update for one input byte. -/
def crcByte (c : ℕ) (b : ℕ) : ℕ := crcStep^[8] (c ^^^ b % 256)

/-- The CRC-32 checksum of a byte list, as computed by zlib.crc32. -/
def crc32 (data : List ℕ) : ℕ :=
  (data.foldl crcByte 4294967295) ^^^ 4294967295

/-- Chunk walk of modify_png_dimensions (src/sb/1.py lines 75-95), fueled:
starting from pos, read a 4-byte big-endian length and a 4-byte type tag,
return the position of the first chunk whose tag is IHDR, else advance by
length + 12; stop with none at the buffer end or when fewer than 8 bytes
remain.  One fuel unit is spent per loop iteration; since every iteration
requires pos < buf.length and strictly increases pos, length + 1 units are
always enough, so the wrapper below is exactly the Python while loop. -/
def findIHDRAux (buf : List ℕ) : ℕ → ℕ → Option ℕ
  | 0, _ => none
  | fuel + 1, pos =>
    if pos < buf.length then
      if buf.length < pos + 8 then none
      else if (buf.drop (pos + 4)).take 4 = ihdrType then some pos
      else findIHDRAux buf fuel (pos + 12 + be4 buf pos)
    else none

/-- The chunk walk of modify_png_dimensions with sufficient fuel. -/
def findIHDR (buf : List ℕ) (pos : ℕ) : Option ℕ :=
  findIHDRAux buf (buf.length + 1) pos

/-- Chunk walk of get_png_dimensions (src/sb/1.py lines 16-37), fueled the
same way: read length and type from the stream; on IHDR read width and height
(4 bytes each, failing on a short read); otherwise skip length + 4 bytes and
continue; every premature end of input yields none. -/
def queryAux (buf : List ℕ) : ℕ → ℕ → Option (ℕ × ℕ)
  | 0, _ => none
  | fuel + 1, pos =>
    if pos + 8 ≤ buf.length then
      if (buf.drop (pos + 4)).take 4 = ihdrType then
        if pos + 16 ≤ buf.length then some (be4 buf (pos + 8), be4 buf (pos + 12))
        else none
      else queryAux buf fuel (pos + 12 + be4 buf pos)
    else none

/-- Embedding of get_png_dimensions (src/sb/1.py lines 5-41): check the
signature, then walk chunks from offset 8 looking for IHDR and return its
width and height fields; none on any failure. -/
def get_png_dimensions (buf : List ℕ) : Option (ℕ × ℕ) :=
  if buf.take 8 = pngSig then queryAux buf (buf.length + 1) 8 else none

/-- Write a list of bytes into the buffer starting at position i, one
List.set per byte, as the Python for-loops over bytearray indices do. -/
def setBytes (buf : List ℕ) (i : ℕ) : List ℕ → List ℕ
  | [] => buf
  | b :: bs => setBytes (buf.set i b) (i + 1) bs

/-- The three writes of modify_png_dimensions (src/sb/1.py lines 140-164)
on a buffer whose IHDR chunk starts at p: new width at p + 8, new height at
p + 12, and at p + 21 the CRC-32 recomputed over bytes p + 4 .. p + 21 of the
ORIGINAL buffer (the source computes crc_data from png_data, not from
new_png_data). -/
def patchAt (buf : List ℕ) (p : ℕ) (nw nh : ℕ) : List ℕ :=
  setBytes
    (setBytes (setBytes buf (p + 8) (be4enc nw)) (p + 12) (be4enc nh))
    (p + 21) (be4enc (crc32 ((buf.drop (p + 4)).take 17)))

/-- Dimension computation of modify_png_dimensions (src/sb/1.py lines
100-121): a supplied scale factor wins unconditionally and truncates both
products; with no scale factor, both explicit dimensions are used as given,
a single dimension with aspect lock truncates the rescaled other dimension
(Python raises ZeroDivisionError when the original divisor is 0), a single
dimension without aspect lock keeps the other original value, and supplying
nothing raises ValueError. -/
def computeDims (ow oh : ℕ) (newW newH : Option ℤ) (keepAspect : Bool)
    (scale : Option ℚ) : Option (ℤ × ℤ) :=
  match scale with
  | some f => some (pyTrunc ((ow : ℚ) * f), pyTrunc ((oh : ℚ) * f))
  | none =>
    match newW, newH with
    | none, none => none
    | some w, some h => some (w, h)
    | some w, none =>
      if keepAspect then
        if ow = 0 then none
        else some (w, pyTrunc ((oh : ℚ) * ((w : ℚ) / (ow : ℚ))))
      else some (w, (oh : ℤ))
    | none, some h =>
      if keepAspect then
        if oh = 0 then none
        else some (pyTrunc ((ow : ℚ) * ((h : ℚ) / (oh : ℚ))), h)
      else some ((ow : ℤ), h)

/-- Embedding of modify_png_dimensions (src/sb/1.py lines 43-172), confirmed
path: verify the signature, walk to the IHDR chunk, read the original width
and height (failing when fewer than 16 bytes follow the chunk start), compute
the target dimensions, floor both at 1 (max(1, int(v))), and produce the
patched copy; none when struct.pack would reject a dimension at or above
2^32 or when any of the three 4-byte writes would fall out of range
(the last write ends at p + 25). -/
def modify_png_dimensions (buf : List ℕ) (newW newH : Option ℤ)
    (keepAspect : Bool) (scale : Option ℚ) : Option (List ℕ) :=
  if buf.take 8 = pngSig then
    match findIHDR buf 8 with
    | some p =>
      if p + 16 ≤ buf.length then
        match computeDims (be4 buf (p + 8)) (be4 buf (p + 12)) newW newH
            keepAspect scale with
        | some (w0, h0) =>
          if max 1 w0 < 2 ^ 32 ∧ max 1 h0 < 2 ^ 32 ∧ p + 25 ≤ buf.length then
            some (patchAt buf p (max 1 w0).toNat (max 1 h0).toNat)
          else none
        | none => none
      else none
    | none => none
  else none

/-- Walker following the claim wording of the spec (section 4.1): identical
to findIHDRAux except that it also stops, without a result, when a chunk
whose type tag equals the terminal marker tag is encountered. -/
def findIHDRSpecAux (buf : List ℕ) : ℕ → ℕ → Option ℕ
  | 0, _ => none
  | fuel + 1, pos =>
    if pos < buf.length then
      if buf.length < pos + 8 then none
      else if (buf.drop (pos + 4)).take 4 = ihdrType then some pos
      else if (buf.drop (pos + 4)).take 4 = iendType then none
      else findIHDRSpecAux buf fuel (pos + 12 + be4 buf pos)
    else none

/-- Walker following the claim wording, with sufficient fuel. -/
def findIHDRSpec (buf : List ℕ) (pos : ℕ) : Option ℕ :=
  findIHDRSpecAux buf (buf.length + 1) pos

/-- Modelled from the spec: rightmost occurrence search for the fixed
12-byte terminal chunk (spec 4.2 step 1, Python rfind semantics).  The
trailer operations themselves are absent from src/, so this and the two
operations below are built from the algorithm of the spec itself.  Scans positions
n - 1 down to 0 and returns the greatest position where the full marker
occurs. -/
def lastMarkerFrom (buf : List ℕ) : ℕ → Option ℕ
  | 0 => none
  | n + 1 =>
    if (buf.drop n).take 12 = iendMarker then some n
    else lastMarkerFrom buf n

/-- Modelled from the spec: position of the last terminal-marker occurrence
in the buffer, none when there is none (spec 4.2 steps 1-2). -/
def lastMarkerPos (buf : List ℕ) : Option ℕ :=
  lastMarkerFrom buf buf.length

/-- Modelled from the spec: the Trailer Append Operation (spec 4.2), absent
from src/.  Locate the last terminal-marker occurrence, fail when absent,
then splice the 4-byte big-endian length prefix and the raw payload in
immediately after the 12-byte terminal chunk; a payload too large for the
4-byte length field fails. -/
def appendTrailer (buf payload : List ℕ) : Option (List ℕ) :=
  match lastMarkerPos buf with
  | none => none
  | some i =>
    if payload.length < 2 ^ 32 then
      some (buf.take (i + 12) ++ be4enc payload.length ++ payload ++
        buf.drop (i + 12))
    else none

/-- Modelled from the spec: the Trailer Extract Operation (spec 4.3), absent
from src/.  Outer none is an error (no terminal marker, or a corrupt
trailer); some none is the valid nothing-to-extract result; some (some p)
returns the payload bytes. -/
def extractTrailer (buf : List ℕ) : Option (Option (List ℕ)) :=
  match lastMarkerPos buf with
  | none => none
  | some i =>
    if buf.length = i + 12 then some none
    else if buf.length < i + 12 + 4 then none
    else
      if buf.length < i + 12 + 4 + be4 buf (i + 12) then none
      else some (some ((buf.drop (i + 12 + 4)).take (be4 buf (i + 12))))

/-- Concrete valid 1-by-1 PNG: signature, a 13-byte IHDR chunk with a correct
stored CRC, and the terminal chunk.  45 bytes; IHDR chunk starts at 8. -/
def pngA : List ℕ :=
  [137, 80, 78, 71, 13, 10, 26, 10,
   0, 0, 0, 13, 73, 72, 68, 82,
   0, 0, 0, 1, 0, 0, 0, 1, 8, 0, 0, 0, 0,
   58, 126, 155, 85,
   0, 0, 0, 0, 73, 69, 78, 68, 174, 66, 96, 130]

/-- Concrete valid 3-by-3 PNG, same layout as pngA. -/
def pngB : List ℕ :=
  [137, 80, 78, 71, 13, 10, 26, 10,
   0, 0, 0, 13, 73, 72, 68, 82,
   0, 0, 0, 3, 0, 0, 0, 3, 8, 0, 0, 0, 0,
   115, 67, 234, 99,
   0, 0, 0, 0, 73, 69, 78, 68, 174, 66, 96, 130]

/-- Concrete buffer whose only IHDR-typed chunk lies after an IEND chunk:
signature, the terminal chunk, then a full IHDR chunk.  45 bytes; the IHDR
chunk starts at 20. -/
def cbuf : List ℕ :=
  [137, 80, 78, 71, 13, 10, 26, 10,
   0, 0, 0, 0, 73, 69, 78, 68, 174, 66, 96, 130,
   0, 0, 0, 13, 73, 72, 68, 82,
   0, 0, 0, 1, 0, 0, 0, 1, 8, 0, 0, 0, 0,
   58, 126, 155, 85]

/-- Expected output of patching pngA to 2 by 2: width and height fields now
hold 2, while the stored CRC bytes are unchanged because the source computes
the checksum from the original buffer. -/
def outA : List ℕ :=
  [137, 80, 78, 71, 13, 10, 26, 10,
   0, 0, 0, 13, 73, 72, 68, 82,
   0, 0, 0, 2, 0, 0, 0, 2, 8, 0, 0, 0, 0,
   58, 126, 155, 85,
   0, 0, 0, 0, 73, 69, 78, 68, 174, 66, 96, 130]

/-- Payload used to break the trailer round trip: it contains the terminal
marker, so after appending, the rightmost marker occurrence moves inside the
trailer region. -/
def evilPayload : List ℕ :=
  [0, 0, 0, 0, 73, 69, 78, 68, 174, 66, 96, 130, 0, 0, 0, 0]

theorem getD_set_ne (l : List ℕ) (i j a : ℕ) (h : i ≠ j) :
    (l.set i a).getD j 0 = l.getD j 0 := by
  rw [List.getD_eq_getElem?_getD, List.getD_eq_getElem?_getD,
    List.getElem?_set_ne h]

theorem setBytes_length :
    ∀ (bs buf : List ℕ) (i : ℕ), (setBytes buf i bs).length = buf.length := by
  intro bs
  induction bs with
  | nil => intro buf i; rfl
  | cons b bs ih =>
    intro buf i
    simp only [setBytes]
    rw [ih, List.length_set]

theorem getD_setBytes_out :
    ∀ (bs buf : List ℕ) (i j : ℕ), j < i ∨ i + bs.length ≤ j →
      (setBytes buf i bs).getD j 0 = buf.getD j 0 := by
  intro bs
  induction bs with
  | nil => intro buf i j _; rfl
  | cons b bs ih =>
    intro buf i j h
    simp only [List.length_cons] at h
    simp only [setBytes]
    rw [ih (buf.set i b) (i + 1) j (by omega)]
    exact getD_set_ne buf i j b (by omega)

theorem getD_setBytes_in :
    ∀ (bs buf : List ℕ) (i k : ℕ), k < bs.length → i + k < buf.length →
      (setBytes buf i bs).getD (i + k) 0 = bs.getD k 0 := by
  intro bs
  induction bs with
  | nil => intro buf i k hk _; simp at hk
  | cons b bs ih =>
    intro buf i k hk hr
    simp only [setBytes]
    cases k with
    | zero =>
      rw [getD_setBytes_out bs (buf.set i b) (i + 1) (i + 0) (Or.inl (by omega))]
      simp only [Nat.add_zero, List.getD_cons_zero]
      rw [List.getD_eq_getElem?_getD, List.getElem?_set_self (by omega)]
      rfl
    | succ k =>
      rw [show i + (k + 1) = (i + 1) + k by omega,
        ih (buf.set i b) (i + 1) k (by simp at hk; omega)
          (by rw [List.length_set]; omega)]
      simp [List.getD_cons_succ]

theorem be4_congr (A B : List ℕ) (i : ℕ)
    (h : ∀ j, i ≤ j → j < i + 4 → A.getD j 0 = B.getD j 0) :
    be4 A i = be4 B i := by
  unfold be4
  rw [h i (Nat.le_refl i) (by omega), h (i + 1) (by omega) (by omega),
    h (i + 2) (by omega) (by omega), h (i + 3) (by omega) (by omega)]

theorem be4_setBytes_enc (buf : List ℕ) (i v : ℕ) (hv : v < 2 ^ 32)
    (h : i + 4 ≤ buf.length) :
    be4 (setBytes buf i (be4enc v)) i = v := by
  have h0 : (setBytes buf i (be4enc v)).getD i 0 = v / 16777216 % 256 := by
    simpa [be4enc] using
      getD_setBytes_in (be4enc v) buf i 0 (by simp [be4enc]) (by omega)
  have h1 : (setBytes buf i (be4enc v)).getD (i + 1) 0 = v / 65536 % 256 := by
    simpa [be4enc] using
      getD_setBytes_in (be4enc v) buf i 1 (by simp [be4enc]) (by omega)
  have h2 : (setBytes buf i (be4enc v)).getD (i + 2) 0 = v / 256 % 256 := by
    simpa [be4enc] using
      getD_setBytes_in (be4enc v) buf i 2 (by simp [be4enc]) (by omega)
  have h3 : (setBytes buf i (be4enc v)).getD (i + 3) 0 = v % 256 := by
    simpa [be4enc] using
      getD_setBytes_in (be4enc v) buf i 3 (by simp [be4enc]) (by omega)
  unfold be4
  rw [h0, h1, h2, h3]
  omega

theorem slice_eq_of_getD (A B : List ℕ) (hlen : A.length = B.length) (a k : ℕ)
    (hk : a + k ≤ A.length)
    (h : ∀ j, a ≤ j → j < a + k → A.getD j 0 = B.getD j 0) :
    (A.drop a).take k = (B.drop a).take k := by
  apply List.ext_getElem
  · simp [hlen]
  · intro n h1 h2
    simp only [List.length_take, List.length_drop] at h1
    have hn : a + n < A.length := by omega
    simp only [List.getElem_take, List.getElem_drop]
    rw [← List.getD_eq_getElem A 0 (by omega),
      ← List.getD_eq_getElem B 0 (by omega)]
    exact h (a + n) (by omega) (by omega)

theorem getD_lt_256 (buf : List ℕ) (hb : ∀ b ∈ buf, b < 256) (j : ℕ) :
    buf.getD j 0 < 256 := by
  rcases Nat.lt_or_ge j buf.length with h | h
  · rw [List.getD_eq_getElem buf 0 h]
    exact hb _ (List.getElem_mem h)
  · rw [List.getD_eq_default buf 0 h]
    omega

theorem be4_lt (buf : List ℕ) (hb : ∀ b ∈ buf, b < 256) (i : ℕ) :
    be4 buf i < 2 ^ 32 := by
  have h0 := getD_lt_256 buf hb i
  have h1 := getD_lt_256 buf hb (i + 1)
  have h2 := getD_lt_256 buf hb (i + 2)
  have h3 := getD_lt_256 buf hb (i + 3)
  unfold be4
  omega

theorem findIHDRAux_fuel (buf : List ℕ) :
    ∀ f1 f2 pos, buf.length < pos + f1 → buf.length < pos + f2 →
      findIHDRAux buf f1 pos = findIHDRAux buf f2 pos := by
  intro f1
  induction f1 with
  | zero =>
    intro f2 pos h1 _
    cases f2 with
    | zero => rfl
    | succ f2 =>
      simp only [findIHDRAux]
      rw [if_neg (show ¬ pos < buf.length by omega)]
  | succ f1 ih =>
    intro f2 pos h1 h2
    cases f2 with
    | zero =>
      simp only [findIHDRAux]
      rw [if_neg (show ¬ pos < buf.length by omega)]
    | succ f2 =>
      simp only [findIHDRAux]
      by_cases hp : pos < buf.length
      · rw [if_pos hp, if_pos hp]
        by_cases h8 : buf.length < pos + 8
        · rw [if_pos h8, if_pos h8]
        · rw [if_neg h8, if_neg h8]
          by_cases ht : (buf.drop (pos + 4)).take 4 = ihdrType
          · rw [if_pos ht, if_pos ht]
          · rw [if_neg ht, if_neg ht]
            exact ih f2 _ (by omega) (by omega)
      · rw [if_neg hp, if_neg hp]

theorem findIHDR_eq_fuel (buf : List ℕ) (pos f : ℕ) (hf : buf.length < pos + f) :
    findIHDR buf pos = findIHDRAux buf f pos :=
  findIHDRAux_fuel buf (buf.length + 1) f pos (by omega) hf

theorem findIHDR_none_of_short (buf : List ℕ) (pos : ℕ)
    (h : buf.length < pos + 8) : findIHDR buf pos = none := by
  unfold findIHDR
  simp only [findIHDRAux]
  by_cases hp : pos < buf.length
  · rw [if_pos hp, if_pos h]
  · rw [if_neg hp]

theorem findIHDR_some_of_found (buf : List ℕ) (pos : ℕ)
    (h8 : pos + 8 ≤ buf.length) (ht : (buf.drop (pos + 4)).take 4 = ihdrType) :
    findIHDR buf pos = some pos := by
  unfold findIHDR
  simp only [findIHDRAux]
  rw [if_pos (show pos < buf.length by omega),
    if_neg (show ¬ buf.length < pos + 8 by omega), if_pos ht]

theorem findIHDR_step (buf : List ℕ) (pos : ℕ)
    (h8 : pos + 8 ≤ buf.length) (ht : (buf.drop (pos + 4)).take 4 ≠ ihdrType) :
    findIHDR buf pos = findIHDR buf (pos + 12 + be4 buf pos) := by
  have h1 : findIHDR buf pos = findIHDRAux buf buf.length (pos + 12 + be4 buf pos) := by
    unfold findIHDR
    simp only [findIHDRAux]
    rw [if_pos (show pos < buf.length by omega),
      if_neg (show ¬ buf.length < pos + 8 by omega), if_neg ht]
  rw [h1]
  exact (findIHDR_eq_fuel buf _ buf.length (by omega)).symm

theorem findIHDRAux_le (buf : List ℕ) :
    ∀ fuel pos p, findIHDRAux buf fuel pos = some p → pos ≤ p := by
  intro fuel
  induction fuel with
  | zero => intro pos p h; simp [findIHDRAux] at h
  | succ fuel ih =>
    intro pos p h
    simp only [findIHDRAux] at h
    by_cases hp : pos < buf.length
    · rw [if_pos hp] at h
      by_cases h8 : buf.length < pos + 8
      · rw [if_pos h8] at h; simp at h
      · rw [if_neg h8] at h
        by_cases ht : (buf.drop (pos + 4)).take 4 = ihdrType
        · rw [if_pos ht] at h
          exact Nat.le_of_eq (Option.some.inj h)
        · rw [if_neg ht] at h
          have := ih _ _ h
          omega
    · rw [if_neg hp] at h; simp at h

theorem findIHDR_le (buf : List ℕ) (pos p : ℕ) (h : findIHDR buf pos = some p) :
    pos ≤ p :=
  findIHDRAux_le buf (buf.length + 1) pos p h

theorem queryAux_eq_find (buf : List ℕ) :
    ∀ fuel pos, queryAux buf fuel pos =
      match findIHDRAux buf fuel pos with
      | some p =>
        if p + 16 ≤ buf.length then some (be4 buf (p + 8), be4 buf (p + 12))
        else none
      | none => none := by
  intro fuel
  induction fuel with
  | zero => intro pos; rfl
  | succ fuel ih =>
    intro pos
    simp only [queryAux, findIHDRAux]
    by_cases h8 : pos + 8 ≤ buf.length
    · rw [if_pos h8, if_pos (show pos < buf.length by omega),
        if_neg (show ¬ buf.length < pos + 8 by omega)]
      by_cases ht : (buf.drop (pos + 4)).take 4 = ihdrType
      · rw [if_pos ht, if_pos ht]
      · rw [if_neg ht, if_neg ht]
        exact ih _
    · rw [if_neg h8]
      by_cases hp : pos < buf.length
      · rw [if_pos hp, if_pos (show buf.length < pos + 8 by omega)]
      · rw [if_neg hp]

theorem get_eq_of_find (buf : List ℕ) (hsig : buf.take 8 = pngSig) :
    get_png_dimensions buf =
      match findIHDR buf 8 with
      | some p =>
        if p + 16 ≤ buf.length then some (be4 buf (p + 8), be4 buf (p + 12))
        else none
      | none => none := by
  unfold get_png_dimensions findIHDR
  rw [if_pos hsig]
  exact queryAux_eq_find buf (buf.length + 1) 8

theorem get_of_find_some (buf : List ℕ) (p : ℕ) (hsig : buf.take 8 = pngSig)
    (hf : findIHDR buf 8 = some p) :
    get_png_dimensions buf =
      if p + 16 ≤ buf.length then some (be4 buf (p + 8), be4 buf (p + 12))
      else none := by
  rw [get_eq_of_find buf hsig, hf]

theorem get_none_of_find_none (buf : List ℕ) (h : findIHDR buf 8 = none) :
    get_png_dimensions buf = none := by
  by_cases hsig : buf.take 8 = pngSig
  · rw [get_eq_of_find buf hsig, h]
  · unfold get_png_dimensions
    rw [if_neg hsig]

theorem findIHDRAux_congr (buf out : List ℕ) (hlen : out.length = buf.length)
    (p : ℕ) (hag : ∀ j, j < p + 8 → out.getD j 0 = buf.getD j 0) :
    ∀ fuel pos, findIHDRAux buf fuel pos = some p →
      findIHDRAux out fuel pos = some p := by
  intro fuel
  induction fuel with
  | zero => intro pos h; simp [findIHDRAux] at h
  | succ fuel ih =>
    intro pos h
    simp only [findIHDRAux] at h ⊢
    by_cases hp : pos < buf.length
    · rw [if_pos hp] at h
      rw [if_pos (show pos < out.length by omega)]
      by_cases h8 : buf.length < pos + 8
      · rw [if_pos h8] at h; simp at h
      · rw [if_neg h8] at h
        rw [if_neg (show ¬ out.length < pos + 8 by omega)]
        by_cases ht : (buf.drop (pos + 4)).take 4 = ihdrType
        · rw [if_pos ht] at h
          have hpp : pos = p := Option.some.inj h
          have hslice : (out.drop (pos + 4)).take 4 = (buf.drop (pos + 4)).take 4 :=
            slice_eq_of_getD out buf hlen (pos + 4) 4 (by omega)
              (fun j _ h2 => hag j (by omega))
          rw [if_pos (hslice.trans ht)]
          exact h
        · rw [if_neg ht] at h
          have hle : pos + 12 + be4 buf pos ≤ p := findIHDRAux_le buf fuel _ p h
          have hslice : (out.drop (pos + 4)).take 4 = (buf.drop (pos + 4)).take 4 :=
            slice_eq_of_getD out buf hlen (pos + 4) 4 (by omega)
              (fun j _ h2 => hag j (by omega))
          rw [if_neg (by rw [hslice]; exact ht)]
          have hbe : be4 out pos = be4 buf pos :=
            be4_congr out buf pos (fun j _ h2 => hag j (by omega))
          rw [hbe]
          exact ih _ h
    · rw [if_neg hp] at h; simp at h

theorem findIHDR_congr (buf out : List ℕ) (hlen : out.length = buf.length)
    (p pos : ℕ) (hag : ∀ j, j < p + 8 → out.getD j 0 = buf.getD j 0)
    (h : findIHDR buf pos = some p) : findIHDR out pos = some p := by
  unfold findIHDR at h ⊢
  rw [hlen]
  exact findIHDRAux_congr buf out hlen p hag (buf.length + 1) pos h

theorem patchAt_length (buf : List ℕ) (p nw nh : ℕ) :
    (patchAt buf p nw nh).length = buf.length := by
  unfold patchAt
  rw [setBytes_length, setBytes_length, setBytes_length]

theorem getD_patchAt_out (buf : List ℕ) (p nw nh i : ℕ)
    (h : i < p + 8 ∨ (p + 16 ≤ i ∧ i < p + 21) ∨ p + 25 ≤ i) :
    (patchAt buf p nw nh).getD i 0 = buf.getD i 0 := by
  unfold patchAt
  rw [getD_setBytes_out _ _ _ _ (by simp [be4enc]; omega),
    getD_setBytes_out _ _ _ _ (by simp [be4enc]; omega),
    getD_setBytes_out _ _ _ _ (by simp [be4enc]; omega)]

theorem be4_patchAt_width (buf : List ℕ) (p nw nh : ℕ)
    (hlen : p + 25 ≤ buf.length) (hnw : nw < 2 ^ 32) :
    be4 (patchAt buf p nw nh) (p + 8) = nw := by
  have hcong : be4 (patchAt buf p nw nh) (p + 8) =
      be4 (setBytes buf (p + 8) (be4enc nw)) (p + 8) := by
    apply be4_congr
    intro j hj1 hj2
    unfold patchAt
    rw [getD_setBytes_out _ _ _ _ (Or.inl (by omega)),
      getD_setBytes_out _ _ _ _ (Or.inl (by omega))]
  rw [hcong, be4_setBytes_enc buf (p + 8) nw hnw (by omega)]

theorem be4_patchAt_height (buf : List ℕ) (p nw nh : ℕ)
    (hlen : p + 25 ≤ buf.length) (hnh : nh < 2 ^ 32) :
    be4 (patchAt buf p nw nh) (p + 12) = nh := by
  have hcong : be4 (patchAt buf p nw nh) (p + 12) =
      be4 (setBytes (setBytes buf (p + 8) (be4enc nw)) (p + 12) (be4enc nh))
        (p + 12) := by
    apply be4_congr
    intro j hj1 hj2
    unfold patchAt
    rw [getD_setBytes_out _ _ _ _ (Or.inl (by omega))]
  rw [hcong, be4_setBytes_enc _ (p + 12) nh hnh
    (by rw [setBytes_length]; omega)]

theorem take8_patchAt (buf : List ℕ) (p nw nh : ℕ) (hp : 8 ≤ p)
    (hlen : 8 ≤ buf.length) :
    (patchAt buf p nw nh).take 8 = buf.take 8 := by
  have h := slice_eq_of_getD (patchAt buf p nw nh) buf
    (patchAt_length buf p nw nh) 0 8 (by rw [patchAt_length]; omega)
    (fun j _ h2 => getD_patchAt_out buf p nw nh j (Or.inl (by omega)))
  simpa using h

theorem query_patchAt (buf : List ℕ) (p nw nh : ℕ)
    (hsig : buf.take 8 = pngSig) (hfind : findIHDR buf 8 = some p)
    (hlen : p + 25 ≤ buf.length) (hnw : nw < 2 ^ 32) (hnh : nh < 2 ^ 32) :
    get_png_dimensions (patchAt buf p nw nh) = some (nw, nh) := by
  have hp8 : 8 ≤ p := findIHDR_le buf 8 p hfind
  have hout : findIHDR (patchAt buf p nw nh) 8 = some p :=
    findIHDR_congr buf _ (patchAt_length buf p nw nh) p 8
      (fun j hj => getD_patchAt_out buf p nw nh j (Or.inl hj)) hfind
  have hsig2 : (patchAt buf p nw nh).take 8 = pngSig := by
    rw [take8_patchAt buf p nw nh hp8 (by omega), hsig]
  rw [get_of_find_some _ p hsig2 hout,
    if_pos (show p + 16 ≤ (patchAt buf p nw nh).length by
      rw [patchAt_length]; omega),
    be4_patchAt_width buf p nw nh hlen hnw,
    be4_patchAt_height buf p nw nh hlen hnh]

theorem modify_eq_patch (buf : List ℕ) (p : ℕ) (newW newH : Option ℤ)
    (ka : Bool) (sc : Option ℚ) (w0 h0 : ℤ)
    (hsig : buf.take 8 = pngSig) (hfind : findIHDR buf 8 = some p)
    (hlen : p + 25 ≤ buf.length)
    (hdims : computeDims (be4 buf (p + 8)) (be4 buf (p + 12)) newW newH ka sc =
      some (w0, h0))
    (hw : max 1 w0 < 2 ^ 32) (hh : max 1 h0 < 2 ^ 32) :
    modify_png_dimensions buf newW newH ka sc =
      some (patchAt buf p (max 1 w0).toNat (max 1 h0).toNat) := by
  unfold modify_png_dimensions
  rw [if_pos hsig]
  simp only [hfind]
  rw [if_pos (show p + 16 ≤ buf.length by omega)]
  simp only [hdims]
  rw [if_pos ⟨hw, hh, hlen⟩]

theorem modify_some_inv (buf : List ℕ) (newW newH : Option ℤ) (ka : Bool)
    (sc : Option ℚ) (out : List ℕ)
    (hmod : modify_png_dimensions buf newW newH ka sc = some out) :
    ∃ p w0 h0, buf.take 8 = pngSig ∧ findIHDR buf 8 = some p ∧
      p + 25 ≤ buf.length ∧
      computeDims (be4 buf (p + 8)) (be4 buf (p + 12)) newW newH ka sc =
        some (w0, h0) ∧
      out = patchAt buf p (max 1 w0).toNat (max 1 h0).toNat := by
  unfold modify_png_dimensions at hmod
  by_cases hsig : buf.take 8 = pngSig
  case neg => rw [if_neg hsig] at hmod; exact absurd hmod (by simp)
  rw [if_pos hsig] at hmod
  cases hf : findIHDR buf 8 with
  | none =>
    simp only [hf] at hmod
    exact absurd hmod (by simp)
  | some p =>
    simp only [hf] at hmod
    by_cases h16 : p + 16 ≤ buf.length
    case neg => rw [if_neg h16] at hmod; exact absurd hmod (by simp)
    rw [if_pos h16] at hmod
    cases hd : computeDims (be4 buf (p + 8)) (be4 buf (p + 12)) newW newH ka sc with
    | none =>
      simp only [hd] at hmod
      exact absurd hmod (by simp)
    | some wh =>
      obtain ⟨w0, h0⟩ := wh
      simp only [hd] at hmod
      by_cases hg : max 1 w0 < 2 ^ 32 ∧ max 1 h0 < 2 ^ 32 ∧ p + 25 ≤ buf.length
      case neg => rw [if_neg hg] at hmod; exact absurd hmod (by simp)
      rw [if_pos hg] at hmod
      refine ⟨p, w0, h0, hsig, ?_, hg.2.2, hd, (Option.some.inj hmod).symm⟩
      rfl

theorem marker_occ_le (buf : List ℕ) (i : ℕ)
    (h : (buf.drop i).take 12 = iendMarker) : i + 12 ≤ buf.length := by
  have hl := congrArg List.length h
  simp only [List.length_take, List.length_drop] at hl
  have : iendMarker.length = 12 := by decide
  omega

theorem lastMarkerFrom_occ (buf : List ℕ) :
    ∀ n i, lastMarkerFrom buf n = some i →
      (buf.drop i).take 12 = iendMarker := by
  intro n
  induction n with
  | zero => intro i h; simp [lastMarkerFrom] at h
  | succ n ih =>
    intro i h
    simp only [lastMarkerFrom] at h
    by_cases hm : (buf.drop n).take 12 = iendMarker
    · rw [if_pos hm] at h
      rwa [← Option.some.inj h]
    · rw [if_neg hm] at h
      exact ih i h

theorem lastMarkerFrom_eq_some (buf : List ℕ) (i : ℕ)
    (hocc : (buf.drop i).take 12 = iendMarker) :
    ∀ n, i < n →
      (∀ j, j < n → i < j → (buf.drop j).take 12 ≠ iendMarker) →
      lastMarkerFrom buf n = some i := by
  intro n
  induction n with
  | zero => intro h _; omega
  | succ n ih =>
    intro hin hno
    simp only [lastMarkerFrom]
    by_cases hn : i = n
    · subst hn
      rw [if_pos hocc]
    · rw [if_neg (hno n (by omega) (by omega))]
      exact ih (by omega) (fun j hj1 hj2 => hno j (by omega) hj2)

theorem getD_append_enc (A R : List ℕ) (v k : ℕ) (hk : k < 4) :
    (A ++ (be4enc v ++ R)).getD (A.length + k) 0 = (be4enc v).getD k 0 := by
  rw [List.getD_append_right _ _ _ _ (by omega)]
  simp only [Nat.add_sub_cancel_left]
  exact List.getD_append _ _ _ _ (by simp [be4enc]; omega)

theorem be4_append_enc (A R : List ℕ) (v : ℕ) (hv : v < 2 ^ 32) :
    be4 (A ++ (be4enc v ++ R)) A.length = v := by
  have h0 := getD_append_enc A R v 0 (by omega)
  have h1 := getD_append_enc A R v 1 (by omega)
  have h2 := getD_append_enc A R v 2 (by omega)
  have h3 := getD_append_enc A R v 3 (by omega)
  simp only [Nat.add_zero] at h0
  unfold be4
  rw [h0, h1, h2, h3]
  simp only [be4enc, List.getD_cons_zero, List.getD_cons_succ]
  omega

/-- C7: for every buffer whose first 8 bytes differ from the PNG signature,
both operations (Dimension Query and Header Patch) fail (return none, the
InvalidFormat outcome) and produce no mutated output. -/
theorem C7_bad_signature_fails (buf : List ℕ) (newW newH : Option ℤ)
    (ka : Bool) (sc : Option ℚ) (h : buf.take 8 ≠ pngSig) :
    get_png_dimensions buf = none ∧
    modify_png_dimensions buf newW newH ka sc = none := by
  constructor
  · unfold get_png_dimensions
    rw [if_neg h]
  · unfold modify_png_dimensions
    rw [if_neg h]

/-- Witness for C7 at a concrete non-PNG buffer. -/
theorem C7_bad_signature_fails_witness :
    get_png_dimensions [1, 2, 3] = none ∧
    modify_png_dimensions [1, 2, 3] (some 4) (some 4) false none = none :=
  C7_bad_signature_fails [1, 2, 3] (some 4) (some 4) false none (by decide)

/-- C5 counterexample: supplying a scale factor together with an explicit
width succeeds (the scale factor silently wins); the claim says this call
must fail with InvalidArguments. -/
theorem C5_extra_args_cex :
    (modify_png_dimensions pngA (some 5) none false (some (mkRat 2 1))).isSome =
      true := by
  decide

/-- C5 amended: the operation fails only when neither a scale factor nor a
width nor a height is supplied; when a scale factor is supplied it takes
precedence and any explicit dimensions are ignored rather than rejected. -/
theorem C5_args_amended :
    (∀ (buf : List ℕ) (ka : Bool),
      modify_png_dimensions buf none none ka none = none) ∧
    (∀ (buf : List ℕ) (newW newH : Option ℤ) (ka : Bool) (f : ℚ),
      modify_png_dimensions buf newW newH ka (some f) =
        modify_png_dimensions buf none none ka (some f)) := by
  constructor
  · intro buf ka
    unfold modify_png_dimensions
    by_cases hsig : buf.take 8 = pngSig
    · rw [if_pos hsig]
      cases hf : findIHDR buf 8 with
      | none => rfl
      | some p =>
        by_cases h16 : p + 16 ≤ buf.length <;> simp [h16, computeDims]
    · rw [if_neg hsig]
  · intro buf newW newH ka f
    rfl

/-- C8 counterexample: on cbuf, whose only IHDR-typed chunk lies after an
IEND chunk, the walker described by the claim stops at the terminal tag and
exhausts without a header, so the claim demands MissingHeader; the code
walker runs past the IEND chunk, finds the IHDR chunk at offset 20, and both
operations succeed. -/
theorem C8_walk_cex :
    findIHDRSpec cbuf 8 = none ∧ findIHDR cbuf 8 = some 20 ∧
    get_png_dimensions cbuf = some (1, 1) ∧
    (modify_png_dimensions cbuf (some 2) (some 2) false none).isSome = true := by
  refine ⟨by decide, by decide, by decide, by decide⟩

/-- C8 amended: the walk starts at offset 8, advances by length + 12, and
stops at the buffer end, when fewer than 8 bytes remain for a chunk header,
or when the header tag is found; it does NOT stop at the terminal marker
tag; when the walk exhausts without the header tag, both the Header Patch
and (for a well-signed buffer, any buffer) the Dimension Query fail. -/
theorem C8_walk_amended :
    (∀ (buf : List ℕ) (pos : ℕ), buf.length < pos + 8 →
      findIHDR buf pos = none) ∧
    (∀ (buf : List ℕ) (pos : ℕ), pos + 8 ≤ buf.length →
      (buf.drop (pos + 4)).take 4 = ihdrType → findIHDR buf pos = some pos) ∧
    (∀ (buf : List ℕ) (pos : ℕ), pos + 8 ≤ buf.length →
      (buf.drop (pos + 4)).take 4 ≠ ihdrType →
      findIHDR buf pos = findIHDR buf (pos + 12 + be4 buf pos)) ∧
    (∀ (buf : List ℕ) (newW newH : Option ℤ) (ka : Bool) (sc : Option ℚ),
      findIHDR buf 8 = none →
      modify_png_dimensions buf newW newH ka sc = none ∧
      get_png_dimensions buf = none) := by
  refine ⟨findIHDR_none_of_short, findIHDR_some_of_found, findIHDR_step, ?_⟩
  intro buf newW newH ka sc h
  refine ⟨?_, get_none_of_find_none buf h⟩
  unfold modify_png_dimensions
  by_cases hsig : buf.take 8 = pngSig
  · rw [if_pos hsig]
    simp only [h]
  · rw [if_neg hsig]

/-- Witness for C8 amended: the short-buffer stop applied at a concrete
buffer. -/
theorem C8_walk_amended_witness : findIHDR [0, 0, 0] 0 = none :=
  C8_walk_amended.1 [0, 0, 0] 0 (by decide)

/-- C10: the Dimension Query is total and pure on arbitrary inputs: it
either returns the width and height read from the first header-typed chunk
the walk encounters (well-formed signature, header found, full 16 bytes
available), or it returns none; being a pure function of the buffer it
cannot throw or mutate its input. -/
theorem C10_query_total (buf : List ℕ) :
    (buf.take 8 = pngSig ∧ ∃ p, findIHDR buf 8 = some p ∧
      p + 16 ≤ buf.length ∧
      get_png_dimensions buf = some (be4 buf (p + 8), be4 buf (p + 12))) ∨
    get_png_dimensions buf = none := by
  by_cases hsig : buf.take 8 = pngSig
  · cases hf : findIHDR buf 8 with
    | none => exact Or.inr (get_none_of_find_none buf hf)
    | some p =>
      by_cases hp : p + 16 ≤ buf.length
      · exact Or.inl ⟨hsig, p, rfl, hp,
          by rw [get_of_find_some buf p hsig hf, if_pos hp]⟩
      · exact Or.inr (by rw [get_of_find_some buf p hsig hf, if_neg hp])
  · exact Or.inr (by unfold get_png_dimensions; rw [if_neg hsig])

/-- C1 (code bug, evaluated at the failing input): patching pngA from 1x1 to
2x2 succeeds and yields outA, yet the stored CRC (bytes 29-32 of the output)
still equals the CRC-32 of the ORIGINAL header chunk bytes and differs from
the CRC-32 over the header of the output buffer type tag + data region; the claim
requires them to be equal. -/
theorem C1_crc_stale_eval :
    modify_png_dimensions pngA (some 2) (some 2) false none = some outA ∧
    be4 outA 29 = crc32 ((pngA.drop 12).take 17) ∧
    crc32 ((outA.drop 12).take 17) ≠ be4 outA 29 := by
  refine ⟨by decide, by decide, by decide⟩

/-- C6: in a successful Header Patch, the output has the length of the input and
every byte outside the width field (p+8..p+11), height field (p+12..p+15)
and stored CRC (p+21..p+24) of the header chunk is unchanged; in particular
all non-header chunks are byte-identical. -/
theorem C6_frame_effect (buf out : List ℕ) (p : ℕ) (newW newH : Option ℤ)
    (ka : Bool) (sc : Option ℚ)
    (hfind : findIHDR buf 8 = some p)
    (hmod : modify_png_dimensions buf newW newH ka sc = some out) :
    out.length = buf.length ∧
    ∀ i, i < p + 8 ∨ (p + 16 ≤ i ∧ i < p + 21) ∨ p + 25 ≤ i →
      out.getD i 0 = buf.getD i 0 := by
  obtain ⟨p2, w0, h0, _, hf2, _, _, hout⟩ :=
    modify_some_inv buf newW newH ka sc out hmod
  have hpp : p2 = p := by
    rw [hfind] at hf2
    exact (Option.some.inj hf2).symm
  subst hpp
  subst hout
  exact ⟨patchAt_length buf p2 _ _,
    fun i hi => getD_patchAt_out buf p2 _ _ i hi⟩

/-- Witness for C6: byte 33 (the first byte of the IEND chunk of pngA) is
unchanged by the patch producing outA. -/
theorem C6_frame_effect_witness : outA.getD 33 0 = pngA.getD 33 0 :=
  (C6_frame_effect pngA outA 8 (some 2) (some 2) false none (by decide)
    (by decide)).2 33 (by omega)

/-- C4: for a valid PNG buffer (correct signature, header chunk found at p,
full 25-byte header-chunk prefix in range) and explicit dimensions w, h with
1 ≤ w and 1 ≤ h within the 4-byte header field range, querying the patched
buffer returns exactly (w, h). -/
theorem C4_patch_then_query (buf : List ℕ) (p w h : ℕ) (ka : Bool)
    (hsig : buf.take 8 = pngSig) (hfind : findIHDR buf 8 = some p)
    (hlen : p + 25 ≤ buf.length)
    (hw1 : 1 ≤ w) (hw2 : w < 2 ^ 32) (hh1 : 1 ≤ h) (hh2 : h < 2 ^ 32) :
    Option.bind (modify_png_dimensions buf (some (w : ℤ)) (some (h : ℤ)) ka none)
      get_png_dimensions = some (w, h) := by
  rw [modify_eq_patch buf p (some (w : ℤ)) (some (h : ℤ)) ka none (w : ℤ) (h : ℤ)
    hsig hfind hlen rfl (by omega) (by omega), Option.some_bind,
    show ((max 1 (w : ℤ)).toNat) = w by omega,
    show ((max 1 (h : ℤ)).toNat) = h by omega]
  exact query_patchAt buf p w h hsig hfind hlen hw2 hh2

/-- Witness for C4 on the concrete 1x1 PNG patched to 640x480. -/
theorem C4_patch_then_query_witness :
    Option.bind (modify_png_dimensions pngA (some 640) (some 480) false none)
      get_png_dimensions = some (640, 480) :=
  C4_patch_then_query pngA 8 640 480 false (by decide) (by decide) (by decide)
    (by decide) (by decide) (by decide) (by decide)

/-- C9: with exactly one dimension supplied and the aspect-lock flag off,
the unspecified dimension of the result equals its original value from the
input header (at least 1 in a valid header); both the width-given and the
height-given case. -/
theorem C9_unspecified_kept (buf : List ℕ) (p w : ℕ)
    (hsig : buf.take 8 = pngSig) (hfind : findIHDR buf 8 = some p)
    (hlen : p + 25 ≤ buf.length) (hbytes : ∀ b ∈ buf, b < 256)
    (hw1 : 1 ≤ w) (hw2 : w < 2 ^ 32)
    (how : 1 ≤ be4 buf (p + 8)) (hoh : 1 ≤ be4 buf (p + 12)) :
    Option.bind (modify_png_dimensions buf (some (w : ℤ)) none false none)
      get_png_dimensions = some (w, be4 buf (p + 12)) ∧
    Option.bind (modify_png_dimensions buf none (some (w : ℤ)) false none)
      get_png_dimensions = some (be4 buf (p + 8), w) := by
  have hohlt : be4 buf (p + 12) < 2 ^ 32 := be4_lt buf hbytes (p + 12)
  have howlt : be4 buf (p + 8) < 2 ^ 32 := be4_lt buf hbytes (p + 8)
  constructor
  · rw [modify_eq_patch buf p (some (w : ℤ)) none false none (w : ℤ)
      ((be4 buf (p + 12) : ℕ) : ℤ) hsig hfind hlen rfl (by omega) (by omega),
      Option.some_bind,
      show ((max 1 (w : ℤ)).toNat) = w by omega,
      show ((max 1 ((be4 buf (p + 12) : ℕ) : ℤ)).toNat) = be4 buf (p + 12) by
        omega]
    exact query_patchAt buf p w _ hsig hfind hlen hw2 hohlt
  · rw [modify_eq_patch buf p none (some (w : ℤ)) false none
      ((be4 buf (p + 8) : ℕ) : ℤ) (w : ℤ) hsig hfind hlen rfl (by omega)
      (by omega),
      Option.some_bind,
      show ((max 1 ((be4 buf (p + 8) : ℕ) : ℤ)).toNat) = be4 buf (p + 8) by
        omega,
      show ((max 1 (w : ℤ)).toNat) = w by omega]
    exact query_patchAt buf p _ w hsig hfind hlen howlt hw2

/-- Witness for C9 on the concrete 1x1 PNG given only a new width 7. -/
theorem C9_unspecified_kept_witness :
    Option.bind (modify_png_dimensions pngA (some 7) none false none)
      get_png_dimensions = some (7, 1) :=
  (C9_unspecified_kept pngA 8 7 (by decide) (by decide) (by decide) (by decide)
    (by decide) (by decide) (by decide) (by decide)).1

/-- C3 counterexample: on the 3x3 PNG with scale factor 1/2 the code yields
width and height 1 (truncation of 1.5), while the formula of the claim
round(3 x 0.5) = 2 (and flooring at 1 keeps 2): the code does not round. -/
theorem C3_round_cex :
    Option.bind (modify_png_dimensions pngB none none false (some (mkRat 1 2)))
      get_png_dimensions = some (1, 1) ∧
    max 1 (round ((3 : ℚ) * mkRat 1 2)) = 2 := by
  constructor
  · decide
  · have h32 : (3 : ℚ) * mkRat 1 2 = 3 / 2 := by
      rw [Rat.mkRat_eq_div]
      norm_num
    rw [h32, show round ((3 : ℚ) / 2) = 2 from by norm_num [round_eq]]
    decide

/-- C3 amended: the scale-factor path computes each target dimension by
TRUNCATION toward zero (Python int), target = pyTrunc(original x factor),
and the single-dimension aspect-lock path computes the unspecified dimension
as pyTrunc(original_other x (specified / original_specified)); every computed
dimension is floored at minimum 1.  Three conjuncts: scale path, aspect-lock
with width given, aspect-lock with height given. -/
theorem C3_trunc_amended :
    (∀ (buf : List ℕ) (p : ℕ) (f : ℚ) (ka : Bool),
      buf.take 8 = pngSig → findIHDR buf 8 = some p → p + 25 ≤ buf.length →
      max 1 (pyTrunc ((be4 buf (p + 8) : ℚ) * f)) < 2 ^ 32 →
      max 1 (pyTrunc ((be4 buf (p + 12) : ℚ) * f)) < 2 ^ 32 →
      Option.bind (modify_png_dimensions buf none none ka (some f))
        get_png_dimensions =
        some ((max 1 (pyTrunc ((be4 buf (p + 8) : ℚ) * f))).toNat,
          (max 1 (pyTrunc ((be4 buf (p + 12) : ℚ) * f))).toNat)) ∧
    (∀ (buf : List ℕ) (p : ℕ) (w : ℤ),
      buf.take 8 = pngSig → findIHDR buf 8 = some p → p + 25 ≤ buf.length →
      be4 buf (p + 8) ≠ 0 → max 1 w < 2 ^ 32 →
      max 1 (pyTrunc ((be4 buf (p + 12) : ℚ) *
        ((w : ℚ) / (be4 buf (p + 8) : ℚ)))) < 2 ^ 32 →
      Option.bind (modify_png_dimensions buf (some w) none true none)
        get_png_dimensions =
        some ((max 1 w).toNat,
          (max 1 (pyTrunc ((be4 buf (p + 12) : ℚ) *
            ((w : ℚ) / (be4 buf (p + 8) : ℚ))))).toNat)) ∧
    (∀ (buf : List ℕ) (p : ℕ) (h : ℤ),
      buf.take 8 = pngSig → findIHDR buf 8 = some p → p + 25 ≤ buf.length →
      be4 buf (p + 12) ≠ 0 → max 1 h < 2 ^ 32 →
      max 1 (pyTrunc ((be4 buf (p + 8) : ℚ) *
        ((h : ℚ) / (be4 buf (p + 12) : ℚ)))) < 2 ^ 32 →
      Option.bind (modify_png_dimensions buf none (some h) true none)
        get_png_dimensions =
        some ((max 1 (pyTrunc ((be4 buf (p + 8) : ℚ) *
            ((h : ℚ) / (be4 buf (p + 12) : ℚ))))).toNat,
          (max 1 h).toNat)) := by
  refine ⟨?_, ?_, ?_⟩
  · intro buf p f ka hsig hfind hlen hw hh
    rw [modify_eq_patch buf p none none ka (some f)
      (pyTrunc ((be4 buf (p + 8) : ℚ) * f))
      (pyTrunc ((be4 buf (p + 12) : ℚ) * f)) hsig hfind hlen rfl hw hh,
      Option.some_bind]
    exact query_patchAt buf p _ _ hsig hfind hlen (by omega) (by omega)
  · intro buf p w hsig hfind hlen hne hw hh
    have hdims : computeDims (be4 buf (p + 8)) (be4 buf (p + 12)) (some w) none
        true none = some (w, pyTrunc ((be4 buf (p + 12) : ℚ) *
          ((w : ℚ) / (be4 buf (p + 8) : ℚ)))) := by
      simp [computeDims, hne]
    rw [modify_eq_patch buf p (some w) none true none w
      (pyTrunc ((be4 buf (p + 12) : ℚ) * ((w : ℚ) / (be4 buf (p + 8) : ℚ))))
      hsig hfind hlen hdims hw hh, Option.some_bind]
    exact query_patchAt buf p _ _ hsig hfind hlen (by omega) (by omega)
  · intro buf p h hsig hfind hlen hne hh hw
    have hdims : computeDims (be4 buf (p + 8)) (be4 buf (p + 12)) none (some h)
        true none = some (pyTrunc ((be4 buf (p + 8) : ℚ) *
          ((h : ℚ) / (be4 buf (p + 12) : ℚ))), h) := by
      simp [computeDims, hne]
    rw [modify_eq_patch buf p none (some h) true none
      (pyTrunc ((be4 buf (p + 8) : ℚ) * ((h : ℚ) / (be4 buf (p + 12) : ℚ))))
      h hsig hfind hlen hdims hw hh, Option.some_bind]
    exact query_patchAt buf p _ _ hsig hfind hlen (by omega) (by omega)

/-- Witness for C3 amended: the scale path on the 3x3 PNG with factor 1/2. -/
theorem C3_trunc_amended_witness :
    Option.bind (modify_png_dimensions pngB none none false (some (mkRat 1 2)))
      get_png_dimensions =
      some ((max 1 (pyTrunc ((be4 pngB 16 : ℚ) * mkRat 1 2))).toNat,
        (max 1 (pyTrunc ((be4 pngB 20 : ℚ) * mkRat 1 2))).toNat) :=
  C3_trunc_amended.1 pngB 8 (mkRat 1 2) false (by decide) (by decide)
    (by decide) (by decide) (by decide)

/-- C2 counterexample (spec-modelled operations): appending evilPayload,
which contains the 12-byte terminal marker, and then extracting returns the
empty payload instead of evilPayload — the rightmost-marker search of the
extract operation finds the marker occurrence inside the appended trailer. -/
theorem C2_roundtrip_cex :
    Option.bind (appendTrailer pngA evilPayload) extractTrailer =
      some (some []) ∧ evilPayload ≠ [] := by
  refine ⟨by decide, by decide⟩

/-- C2 amended (spec-modelled): the round trip returns exactly P provided
the terminal marker pattern does not occur anywhere after the original
rightmost marker position in the appended buffer — in particular whenever
the length prefix plus payload contain no marker occurrence.  Without that
proviso the rightmost-marker search can land inside the trailer. -/
theorem C2_roundtrip_amended (buf P : List ℕ) (i : ℕ)
    (hm : lastMarkerPos buf = some i)
    (hP : P.length < 2 ^ 32)
    (hno : ∀ j, j < buf.length + 4 + P.length → i < j →
      ((buf.take (i + 12) ++ be4enc P.length ++ P ++ buf.drop (i + 12)).drop
        j).take 12 ≠ iendMarker) :
    Option.bind (appendTrailer buf P) extractTrailer = some (some P) := by
  have hocc : (buf.drop i).take 12 = iendMarker :=
    lastMarkerFrom_occ buf buf.length i hm
  have hi12 : i + 12 ≤ buf.length := marker_occ_le buf i hocc
  have hA : (buf.take (i + 12)).length = i + 12 := by
    rw [List.length_take]
    omega
  have hassoc : buf.take (i + 12) ++ be4enc P.length ++ P ++ buf.drop (i + 12) =
      buf.take (i + 12) ++ (be4enc P.length ++ (P ++ buf.drop (i + 12))) := by
    rw [List.append_assoc, List.append_assoc]
  set R := buf.take (i + 12) ++ (be4enc P.length ++ (P ++ buf.drop (i + 12)))
    with hR
  have happ : appendTrailer buf P = some R := by
    unfold appendTrailer
    simp only [hm]
    rw [if_pos hP, hassoc]
  have hlen : R.length = buf.length + 4 + P.length := by
    rw [hR]
    simp only [List.length_append, List.length_take, List.length_drop, be4enc,
      List.length_cons, List.length_nil]
    omega
  have hno2 : ∀ j, j < R.length → i < j → (R.drop j).take 12 ≠ iendMarker := by
    intro j h1 h2
    have h3 := hno j (by omega) h2
    rwa [hassoc] at h3
  have houtocc : (R.drop i).take 12 = iendMarker := by
    have hdrop : R.drop i =
        (buf.drop i).take 12 ++
          (be4enc P.length ++ (P ++ buf.drop (i + 12))) := by
      rw [hR, List.drop_append_of_le_length (by rw [hA]; omega),
        List.drop_take, show i + 12 - i = 12 by omega]
    rw [hdrop, List.take_append_of_le_length (by rw [hocc]; decide), hocc]
    decide
  have hlast : lastMarkerPos R = some i := by
    unfold lastMarkerPos
    exact lastMarkerFrom_eq_some R i houtocc R.length (by omega) hno2
  rw [happ, Option.some_bind]
  unfold extractTrailer
  simp only [hlast]
  rw [if_neg (show ¬ R.length = i + 12 by omega),
    if_neg (show ¬ R.length < i + 12 + 4 by omega)]
  have hbe : be4 R (i + 12) = P.length := by
    have hb := be4_append_enc (buf.take (i + 12)) (P ++ buf.drop (i + 12))
      P.length hP
    rw [hA] at hb
    rw [hR]
    exact hb
  rw [hbe, if_neg (show ¬ R.length < i + 12 + 4 + P.length by omega)]
  have hdrop16 : R.drop (i + 12 + 4) = P ++ buf.drop (i + 12) := by
    have h2 : R =
        (buf.take (i + 12) ++ be4enc P.length) ++ (P ++ buf.drop (i + 12)) := by
      rw [hR, List.append_assoc]
    have hl : (buf.take (i + 12) ++ be4enc P.length).length = i + 12 + 4 := by
      rw [List.length_append, hA]
      simp [be4enc]
    rw [h2, ← hl, List.drop_left]
  rw [hdrop16, List.take_left]

/-- Witness for C2 amended: appending the 5-byte payload "hello" to the
1x1 PNG and extracting returns it unchanged. -/
theorem C2_roundtrip_amended_witness :
    Option.bind (appendTrailer pngA [104, 101, 108, 108, 111]) extractTrailer =
      some (some [104, 101, 108, 108, 111]) :=
  C2_roundtrip_amended pngA [104, 101, 108, 108, 111] 33 (by decide) (by decide)
    (by decide)
